import Mathlib

/-
Verification of the TD-learning / hierarchical-policy core of Deep-RL-Torch.

Tensors are modelled as lists of rationals (one entry per batch row; a row of
a feature tensor is collapsed to a single rational where only row identity and
row bookkeeping matter).  Fallible tensor operations return Option.  All
definitions are transcribed from src/networks.py and src/policies.py; the only
exceptions are soft_update / hard_update, which live in the repository's
util.py (not part of src/) and are modelled from the spec, as marked.
-/

namespace DeepRLTorch

/-- Elementwise smooth L1 loss with beta = 1, as computed by
torch.nn.functional.smooth_l1_loss: 0.5 * d^2 if |d| < 1 else |d| - 0.5. -/
def smooth_l1 (x y : ℚ) : ℚ :=
  if |x - y| < 1 then (x - y) ^ 2 / 2 else |x - y| - 1 / 2

/-- Mean of a list of rationals (torch .mean on a 1-d tensor). -/
def mean (l : List ℚ) : ℚ := l.sum / l.length

/-- OptimizableNet.compute_loss (networks.py lines 152-157): elementwise
smooth L1 loss, then either a plain mean (sample_weights is None) or the mean
of the loss multiplied elementwise by the sample weights. -/
def compute_loss (output target : List ℚ) (sample_weights : Option (List ℚ)) : ℚ :=
  let loss := List.zipWith smooth_l1 output target
  match sample_weights with
  | none => mean loss
  | some w => mean (List.zipWith (· * ·) loss w)

/-- Boolean-mask assignment `zeros[mask] = preds` on a fresh zero tensor of
the mask's length: rows where the mask is true receive the successive entries
of preds, rows where it is false keep the value 0. -/
def scatterMask : List Bool → List ℚ → List ℚ
  | [], _ => []
  | true :: ms, ps => ps.headD 0 :: scatterMask ms ps.tail
  | false :: ms, ps => 0 :: scatterMask ms ps

/-- TempDiffNet.calculate_next_state_values (networks.py lines 438-446):
allocate a zero tensor with one row per entry of non_final_mask; if
non_final_next_state_features is None return it as is; otherwise run the
target network (an arbitrary function `net` of the features, modelling
target_net.predict_state_value) and scatter its predictions into the rows
where non_final_mask is true. -/
def calculate_next_state_values (net : List ℚ → List ℚ)
    (non_final_next_state_features : Option (List ℚ)) (non_final_mask : List Bool) :
    List ℚ :=
  match non_final_next_state_features with
  | none => List.replicate non_final_mask.length 0
  | some feats => scatterMask non_final_mask (net feats)

/-- TempDiffNet.calculate_updated_value_next_state (networks.py lines
448-458), with the next-state predictions taken as an argument:
`(predictions_next_state * gamma) + (reward_batch if not split else 0)`. -/
def calculate_updated_value_next_state (split : Bool) (gamma : ℚ)
    (reward_batch predictions_next_state : List ℚ) : List ℚ :=
  let scaled := predictions_next_state.map (· * gamma)
  if split then scaled else List.zipWith (· + ·) scaled reward_batch

/-! Target network synchronization (claim C9).  OptimizableNet.update_targets
(networks.py lines 181-186) dispatches on the polyak flag; the two parameter
copy operations soft_update and hard_update are defined in the repository's
util.py, which is not part of src/, so they are modelled from the spec.
Network parameters are modelled as a flat list of rationals. -/

structure SyncConfig where
  target_network_polyak : Bool
  tau : ℚ
  target_network_hard_steps : ℕ

/-- Modelled from the spec: soft_update (Polyak averaging) from util.py, which
is missing from src/; per the spec "blend target ← (1−τ)·target + τ·live
every step". -/
def soft_update (live target : List ℚ) (tau : ℚ) : List ℚ :=
  List.zipWith (fun t l => (1 - tau) * t + tau * l) target live

/-- Modelled from the spec: hard_update from util.py, which is missing from
src/; per the spec "hard-copy live → target", making the target parameters
bit-identical with the live ones. -/
def hard_update (live _target : List ℚ) : List ℚ := live

/-- OptimizableNet.update_targets (networks.py lines 181-186): if Polyak
averaging is configured, soft-update on every call; otherwise hard-copy only
when steps % target_network_hard_steps == 0. -/
def update_targets (cfg : SyncConfig) (steps : ℕ) (live target : List ℚ) : List ℚ :=
  if cfg.target_network_polyak then soft_update live target cfg.tau
  else if steps % cfg.target_network_hard_steps = 0 then hard_update live target
  else target

/-! Replay priorities (claim C10).  BasePolicy.optimize (policies.py lines
309-331) transforms the error returned by optimize_networks with
`error = abs(error) + 0.0001` and, when PER is in use, passes the result to
memory.update_priorities. -/

/-- The per-row priorities computed by BasePolicy.optimize (policies.py lines
326-331) from the error tensor returned by optimize_networks:
abs(error) + 0.0001 elementwise. -/
def optimize_priorities (error : List ℚ) : List ℚ :=
  error.map (fun e => |e| + 1 / 10000)

/-! Actor CACLA-V update (claim C7), from Actor.optimize
(networks.py lines 829-866), discrete-environment path. -/

/-- Tensor boolean-mask row selection `t[mask]`: keeps the rows at the
positions where the mask is true, in order. -/
def boolMaskSelect {α : Type} : List α → List Bool → List α
  | [], _ => []
  | _, [] => []
  | a :: as, b :: bs => if b then a :: boolMaskSelect as bs else boolMaskSelect as bs

/-- torch.argmax on one row: index of the (first) maximal entry. -/
def rowArgmax (l : List ℚ) : ℕ :=
  (List.range l.length).foldl (fun best i => if l.getD best 0 < l.getD i 0 then i else best) 0

/-- The data assembled by Actor.optimize for the training step: the selected
actor outputs, the regression targets, and the per-row sample weights. -/
structure ActorTrainData where
  output : List (List ℚ)
  target : List ℕ
  sample_weights : List ℚ

/-- The CACLA-V branch of Actor.optimize (networks.py lines 838-860) in a
discrete environment: transformed_action_batch = argmax of each action row,
pos_TDE_mask = (V.TDE < 0), output = actions_current_state[pos_TDE_mask],
target = transformed_action_batch[pos_TDE_mask], and
sample_weights = -1 * torch.ones(target.shape). -/
def actor_optimize_CACLA_V (V_TDE : List ℚ)
    (actions_current_state action_batch : List (List ℚ)) : ActorTrainData :=
  let transformed_action_batch := action_batch.map rowArgmax
  let pos_TDE_mask := V_TDE.map (fun t => decide (t < 0))
  let output := boolMaskSelect actions_current_state pos_TDE_mask
  let target := boolMaskSelect transformed_action_batch pos_TDE_mask
  { output := output, target := target,
    sample_weights := List.replicate target.length (-1 : ℚ) }

/-- The row indices with a negative V.TDE, in increasing order (the rows the
spec says must enter the actor loss). -/
def negative_TDE_rows (V_TDE : List ℚ) : List ℕ :=
  (List.range V_TDE.length).filter (fun i => decide (V_TDE.getD i 0 < 0))

/-! Prioritized-replay importance weights (claim C8).  The flow of the
sampled weights through BasePolicy.get_transitions (policies.py lines
341-357), BasePolicy.extract_batch (lines 359-407, which builds the
transitions dict with key "PER_importance_weights" set to None and no
"importance_weights" key), and BasePolicy.train_critic (lines 293-307, which
reads transitions["PER_importance_weights"] for V and the instance attribute
self.importance_weights for Q).  Dict keys that may be absent or None are
modelled as Option fields. -/

/-- The weight-related entries of the transitions dict. -/
structure TransWeightKeys where
  PER_importance_weights : Option (List ℚ)
  importance_weights : Option (List ℚ)
  PER_idxs : Option (List ℕ)

/-- The weight-related entries of the dict built by BasePolicy.extract_batch
(policies.py lines 402-405): "PER_importance_weights" and "PER_idxs" are set
to None, and there is no "importance_weights" entry. -/
def extract_batch_weight_keys : TransWeightKeys :=
  { PER_importance_weights := none, importance_weights := none, PER_idxs := none }

/-- BasePolicy.get_transitions with use_PER (policies.py lines 341-357):
memory.sample returns the importance weights and indices, extract_batch
builds a fresh dict, and the sampled values are stored under the keys
"importance_weights" and "PER_idxs". -/
def get_transitions_weight_keys (sampled_importance_weights : List ℚ)
    (sampled_PER_idxs : List ℕ) : TransWeightKeys :=
  { extract_batch_weight_keys with
    importance_weights := some sampled_importance_weights
    PER_idxs := some sampled_PER_idxs }

/-- BasePolicy.self.importance_weights: set to None in __init__ (policies.py
line 184) and never reassigned anywhere in the class. -/
def BasePolicy_importance_weights : Option (List ℚ) := none

/-- The sample_weights argument train_critic (policies.py line 297) passes to
V.optimize for the value TD loss: transitions["PER_importance_weights"]. -/
def train_critic_V_sample_weights (t : TransWeightKeys) : Option (List ℚ) :=
  t.PER_importance_weights

/-- The sample_weights argument train_critic (policies.py line 302) passes to
Q.optimize for the value TD loss: self.importance_weights. -/
def train_critic_Q_sample_weights (_t : TransWeightKeys) : Option (List ℚ) :=
  BasePolicy_importance_weights

/-! Hierarchical index decomposition (claim C2).  MineRLPolicy
.create_adjusted_action_policy (policies.py lines 593-608) assigns each child
policy a contiguous shift and extends action_mapping with its branch counter
once per flat action; MineRLObtainPolicy / MineRLHierarchicalPolicy
.action2high_low_level (lines 646-657 and 906-921) decode a flat action. The
construction is parametrised by the list ns of branch sizes (for
MineRLObtainPolicy ns = [9, 6, 7, 4, 7, 2]). -/

/-- The action_mapping array built by the successive
create_adjusted_action_policy calls: each child with size n appends n copies
of its counter, counters increasing from the given start. -/
def action_mapping : List ℕ → ℕ → List ℕ
  | [], _ => []
  | n :: ns, counter => List.replicate n counter ++ action_mapping ns (counter + 1)

/-- The shift stored on child k: the sum of the sizes of the children created
before it (create_adjusted_action_policy returns shift + num_actions). -/
def branch_shift (ns : List ℕ) (k : ℕ) : ℕ := (ns.take k).sum

/-- action2high_low_level on one flat action (policies.py lines 646-657):
high = action_mapping[action], low = action - shift[high]. -/
def action2high_low_level (ns : List ℕ) (action : ℕ) : ℕ × ℕ :=
  let high_lvl_action := (action_mapping ns 0).getD action 0
  (high_lvl_action, action - branch_shift ns high_lvl_action)

/-- Branch sizes of the six lower-level policies of MineRLObtainPolicy
(policies.py lines 635-640): mover 9, placer 6, equipper 7, crafter 4,
nearby_crafter 7, nearby_smelter 2. -/
def obtainSizes : List ℕ := [9, 6, 7, 4, 7, 2]

/-! Hierarchical batch routing (claims C4, C5, C6), from
MineRLObtainPolicy.get_masks / optimize_networks (policies.py lines 659-691)
and MineRLHierarchicalPolicy.apply_mask_to_transitions / optimize_networks
(lines 930-1009). -/

/-- Integer-index tensor selection `t[idx_mask]`: row i of the result is row
idx_mask[i] of the input. -/
def select {α : Type} [Inhabited α] (l : List α) (idxs : List ℕ) : List α :=
  idxs.map (fun i => l.getD i default)

/-- The transitions dict built by BasePolicy.extract_batch and enriched
during optimization.  Rows of state-like tensors are collapsed to a single
rational; the non_final_mask entry is always present for batches produced by
extract_batch, so its None branch in apply_mask_to_transitions (policies.py
lines 934-935) is not modelled. -/
structure TransitionBatch where
  state : List ℚ
  action : List (List ℚ)
  reward : List ℚ
  non_final_next_states : List ℚ
  non_final_mask : List Bool
  non_final_next_state_features : List ℚ
  state_features : List ℚ
  action_argmax : List ℕ

/-- The loop of apply_idx_mask_to_mask (policies.py lines 939-953), iterating
over the remaining suffix of non_final_mask with the current enumeration
index, the remaining copy of idx_mask, and the running non_final_idx counter.
Returns none exactly when the Python code would raise an IndexError on
idx_mask_cpy[0] (possible only if the initial idx_mask is empty). -/
def apply_idx_mask_loop : List Bool → ℕ → List ℕ → ℕ → Option (List ℕ)
  | [], _, _, _ => some []
  | b :: ms, mask_idx, idx_cpy, non_final_idx =>
    match idx_cpy with
    | [] => none
    | c :: cs =>
      let here := if b = true ∧ mask_idx = c then [non_final_idx] else []
      let nfi := if b then non_final_idx + 1 else non_final_idx
      if mask_idx = c then
        if cs = [] then some here
        else (apply_idx_mask_loop ms (mask_idx + 1) cs nfi).map (fun rest => here ++ rest)
      else (apply_idx_mask_loop ms (mask_idx + 1) (c :: cs) nfi).map (fun rest => here ++ rest)

/-- apply_idx_mask_to_mask from
MineRLHierarchicalPolicy.apply_mask_to_transitions (policies.py lines
939-953): walks the parent non_final_mask to translate the selected row
indices into positions inside the compacted next-state tensor. -/
def apply_idx_mask_to_mask (idx_mask : List ℕ) (mask : List Bool) : Option (List ℕ) :=
  apply_idx_mask_loop mask 0 idx_mask 0

/-- MineRLHierarchicalPolicy.apply_mask_to_transitions (policies.py lines
930-982): the next-state entries are selected through the transformed mask,
non_final_mask and all remaining tensor entries are selected through
idx_mask. -/
def apply_mask_to_transitions (t : TransitionBatch) (idx_mask : List ℕ) :
    Option TransitionBatch :=
  (apply_idx_mask_to_mask idx_mask t.non_final_mask).map (fun transformed_mask =>
    { state := select t.state idx_mask
      action := select t.action idx_mask
      reward := select t.reward idx_mask
      non_final_next_states := select t.non_final_next_states transformed_mask
      non_final_mask := select t.non_final_mask idx_mask
      non_final_next_state_features := select t.non_final_next_state_features transformed_mask
      state_features := select t.state_features idx_mask
      action_argmax := select t.action_argmax idx_mask })

/-- The loop of get_masks (policies.py lines 659-664): for each row index, in
order, append the index to the bucket of that row's action. -/
def get_masks_loop : List (List ℕ) → ℕ → List ℕ → List (List ℕ)
  | idxs, _, [] => idxs
  | idxs, idx, action :: rest =>
    get_masks_loop (idxs.set action (idxs.getD action [] ++ [idx])) (idx + 1) rest

/-- get_masks (policies.py lines 659-664): bucket the row indices of a batch
by their (high-level) action value, starting from num_low_lvl empty buckets
(num_low_lvl defaults to 6). -/
def get_masks (actions : List ℕ) (num_low_lvl : ℕ) : List (List ℕ) :=
  get_masks_loop (List.replicate num_low_lvl []) 0 actions

/-- The per-row high-level decodes of a batch of flat actions
(action2high_low_level applied rowwise, policies.py lines 646-657). -/
def high_of (ns : List ℕ) (actions : List ℕ) : List ℕ :=
  actions.map (fun a => (action2high_low_level ns a).1)

/-- The (policy_idx, idx_mask) pairs for which the loop of
MineRLObtainPolicy.optimize_networks (policies.py lines 678-688) actually
invokes the branch policy: the enumerated get_masks buckets with the empty
buckets skipped by the `continue`. -/
def obtain_invoked_branches (high_level_actions : List ℕ) : List (ℕ × List ℕ) :=
  (get_masks high_level_actions 6).enum.filter (fun p => !p.2.isEmpty)

/-- The row indices of a batch whose (already decoded) high-level action is
k, in increasing order. -/
def routed_rows (high_level_actions : List ℕ) (k : ℕ) : List ℕ :=
  (List.range high_level_actions.length).filter
    (fun i => decide (high_level_actions.getD i 0 = k))

/-- Tensor index assignment `dst[idxs] = src[idxs]` for the action_argmax
overwrite in the hierarchical training loop (policies.py line 1002). -/
def setIdxs (dst : List ℕ) (idxs : List ℕ) (src : List ℕ) : List ℕ :=
  idxs.foldl (fun acc i => acc.set i (src.getD i 0)) dst

/-- Tensor indexed accumulation `error[idxs] += src` (policies.py line 1006):
the j-th entry of src is added at position idxs[j]. -/
def addAtIdxs (error : List ℚ) (idxs : List ℕ) (src : List ℚ) : List ℚ :=
  (idxs.zip src).foldl (fun acc p => acc.set p.1 (acc.getD p.1 0 + p.2)) error

/-- One iteration of the branch loop of
MineRLHierarchicalPolicy.optimize_networks (policies.py lines 999-1006):
skip an empty idx_mask, otherwise overwrite the selected action_argmax rows
with the low-level actions, build the masked partial batch, run the branch
optimizer (an arbitrary function branchOpt), and accumulate its per-row
error. -/
def hier_branch_step (branchOpt : ℕ → TransitionBatch → List ℚ)
    (low_level_actions : List ℕ) (acc : TransitionBatch × List ℚ)
    (pk : ℕ × List ℕ) : TransitionBatch × List ℚ :=
  if pk.2 = [] then acc
  else
    let t2 : TransitionBatch :=
      { acc.1 with action_argmax := setIdxs acc.1.action_argmax pk.2 low_level_actions }
    match apply_mask_to_transitions t2 pk.2 with
    | none => (t2, acc.2)
    | some masked => (t2, addAtIdxs acc.2 pk.2 (branchOpt pk.1 masked))

/-- MineRLHierarchicalPolicy.optimize_networks (policies.py lines 984-1009)
with the decider present, parametrised by the decider and branch optimizers
(arbitrary functions returning per-row errors): save the original
action_argmax, overwrite it with the high-level decodes, train the decider,
route the rows to the branches, and restore the original action_argmax in
the shared transitions dict before returning it alongside the error. -/
def hier_optimize_networks (ns : List ℕ) (deciderOpt : TransitionBatch → List ℚ)
    (branchOpt : ℕ → TransitionBatch → List ℚ) (t : TransitionBatch) :
    TransitionBatch × List ℚ :=
  let original_actions := t.action_argmax
  let high_level_actions := original_actions.map (fun a => (action2high_low_level ns a).1)
  let low_level_actions := original_actions.map (fun a => (action2high_low_level ns a).2)
  let t1 : TransitionBatch := { t with action_argmax := high_level_actions }
  let error := deciderOpt t1
  let mask_list := get_masks high_level_actions 6
  let res := mask_list.enum.foldl (hier_branch_step branchOpt low_level_actions) (t1, error)
  ({ res.1 with action_argmax := original_actions }, res.2)

lemma scatterMask_length (mask : List Bool) (ps : List ℚ) :
    (scatterMask mask ps).length = mask.length := by
  induction mask generalizing ps with
  | nil => rfl
  | cons b ms ih =>
    cases b <;> simp [scatterMask, ih]

lemma scatterMask_getD_false (mask : List Bool) (ps : List ℚ) (i : ℕ)
    (hi : i < mask.length) (hfalse : mask.getD i true = false) :
    (scatterMask mask ps).getD i 0 = 0 := by
  induction mask generalizing ps i with
  | nil => simp at hi
  | cons b ms ih =>
    cases i with
    | zero =>
      cases b with
      | false => simp [scatterMask]
      | true => simp at hfalse
    | succ j =>
      have hj : j < ms.length := by simpa using hi
      have hf : ms.getD j true = false := by simpa using hfalse
      cases b with
      | false => simpa [scatterMask] using ih ps j hj hf
      | true => simpa [scatterMask] using ih ps.tail j hj hf

/-- Claim C1: calculate_next_state_values returns a tensor with one entry per
row of non_final_mask; every row where non_final_mask is false holds exactly
0 regardless of the network (net is universally quantified); and when
non_final_next_state_features is None (all rows terminal) it returns the
correctly-shaped all-zero tensor rather than failing. -/
theorem C1_terminal_masking (net : List ℚ → List ℚ)
    (non_final_next_state_features : Option (List ℚ)) (non_final_mask : List Bool) :
    (calculate_next_state_values net non_final_next_state_features non_final_mask).length
        = non_final_mask.length ∧
    (∀ i, i < non_final_mask.length → non_final_mask.getD i true = false →
      (calculate_next_state_values net non_final_next_state_features
          non_final_mask).getD i 0 = 0) ∧
    (non_final_next_state_features = none →
      calculate_next_state_values net non_final_next_state_features non_final_mask
        = List.replicate non_final_mask.length 0) := by
  refine ⟨?_, ?_, ?_⟩
  · cases non_final_next_state_features with
    | none => simp [calculate_next_state_values]
    | some feats => simp [calculate_next_state_values, scatterMask_length]
  · intro i hi hfalse
    cases non_final_next_state_features with
    | none =>
      simp only [calculate_next_state_values]
      rw [List.getD_eq_getElem?_getD]
      rcases Nat.lt_or_ge i non_final_mask.length with h | h
      · simp [List.getElem?_replicate, h]
      · omega
    | some feats =>
      exact scatterMask_getD_false non_final_mask (net feats) i hi hfalse
  · intro h
    subst h
    rfl

/-- Closed witness for C1 at a concrete batch: mask [true, false, true] with a
row-doubling network and features [5, 7]; row 1 is terminal and reads 0. -/
theorem C1_terminal_masking_witness :
    (1 < ([true, false, true] : List Bool).length ∧
      ([true, false, true] : List Bool).getD 1 true = false) ∧
    (calculate_next_state_values (fun l => l.map (· * 2)) (some [5, 7])
        [true, false, true]).getD 1 0 = 0 := by
  refine ⟨⟨by decide, by decide⟩, ?_⟩
  exact (C1_terminal_masking (fun l => l.map (· * 2)) (some [5, 7])
    [true, false, true]).2.1 1 (by decide) (by decide)

lemma map_mul_getD (gamma : ℚ) (l : List ℚ) (i : ℕ) (hi : i < l.length) :
    (l.map (· * gamma)).getD i 0 = l.getD i 0 * gamma := by
  induction l generalizing i with
  | nil => simp at hi
  | cons a as ih =>
    cases i with
    | zero => simp
    | succ j =>
      have hj : j < as.length := by simpa using hi
      simpa using ih j hj

lemma zipWith_getD (f : ℚ → ℚ → ℚ) (l1 l2 : List ℚ) (i : ℕ)
    (h : l1.length = l2.length) (hi : i < l1.length) :
    (List.zipWith f l1 l2).getD i 0 = f (l1.getD i 0) (l2.getD i 0) := by
  induction l1 generalizing l2 i with
  | nil => simp at hi
  | cons a as ih =>
    cases l2 with
    | nil => simp at h
    | cons b bs =>
      cases i with
      | zero => simp
      | succ j =>
        have hj : j < as.length := by simpa using hi
        have hlen : as.length = bs.length := by simpa using h
        simpa using ih bs j hlen hj

/-- Claim C3: calculate_updated_value_next_state returns, per row,
gamma * prediction + reward when split Bellman is disabled, and exactly
gamma * prediction with no raw reward term when split Bellman is enabled. -/
theorem C3_split_bellman_target (split : Bool) (gamma : ℚ)
    (reward_batch predictions_next_state : List ℚ)
    (hlen : predictions_next_state.length = reward_batch.length)
    (i : ℕ) (hi : i < predictions_next_state.length) :
    (calculate_updated_value_next_state split gamma reward_batch
        predictions_next_state).getD i 0
      = gamma * predictions_next_state.getD i 0
        + (if split then 0 else reward_batch.getD i 0) := by
  cases split with
  | false =>
    simp only [calculate_updated_value_next_state, Bool.false_eq_true, if_false]
    rw [zipWith_getD (· + ·) _ _ i (by simpa using hlen) (by simpa using hi)]
    rw [map_mul_getD gamma predictions_next_state i hi]
    ring
  | true =>
    simp only [calculate_updated_value_next_state, if_pos rfl, if_true]
    rw [map_mul_getD gamma predictions_next_state i hi]
    ring

/-- Closed witness for C3 at a concrete batch: gamma = 1/2, rewards [3, 4],
predictions [10, 20]; with split enabled row 1 is 10 (no reward term). -/
theorem C3_split_bellman_target_witness :
    (([10, 20] : List ℚ).length = ([3, 4] : List ℚ).length ∧
      1 < ([10, 20] : List ℚ).length) ∧
    (calculate_updated_value_next_state true (1 / 2) [3, 4] [10, 20]).getD 1 0
      = 1 / 2 * ([10, 20] : List ℚ).getD 1 0 + (if true then 0 else ([3, 4] : List ℚ).getD 1 0) := by
  refine ⟨⟨by decide, by decide⟩, ?_⟩
  exact C3_split_bellman_target true (1 / 2) [3, 4] [10, 20] (by decide) 1 (by decide)

/-- Claim C9: with Polyak averaging enabled every call blends
target ← (1−τ)·target + τ·live per parameter; otherwise the call hard-copies
live → target exactly when steps % target_network_hard_steps == 0 (making the
parameters identical) and leaves the target unchanged on all other steps, so
exactly one of the two sync policies applies to an estimator instance. -/
theorem C9_target_sync (cfg : SyncConfig) (steps : ℕ) (live target : List ℚ)
    (hlen : target.length = live.length) :
    (cfg.target_network_polyak = true →
      ∀ i, i < target.length →
        (update_targets cfg steps live target).getD i 0
          = (1 - cfg.tau) * target.getD i 0 + cfg.tau * live.getD i 0) ∧
    (cfg.target_network_polyak = false →
      steps % cfg.target_network_hard_steps = 0 →
      update_targets cfg steps live target = live) ∧
    (cfg.target_network_polyak = false →
      steps % cfg.target_network_hard_steps ≠ 0 →
      update_targets cfg steps live target = target) := by
  refine ⟨?_, ?_, ?_⟩
  · intro hp i hi
    simp only [update_targets, hp, if_true, soft_update]
    exact zipWith_getD (fun t l => (1 - cfg.tau) * t + cfg.tau * l) target live i hlen hi
  · intro hp hmod
    simp [update_targets, hp, hmod, hard_update]
  · intro hp hmod
    simp [update_targets, hp, hmod]

/-- Closed witness for C9: a hard update at step 40 with period 20 copies the
live parameters [1, 2] over the target parameters [5, 6]. -/
theorem C9_target_sync_witness :
    (([5, 6] : List ℚ).length = ([1, 2] : List ℚ).length ∧
      SyncConfig.target_network_polyak ⟨false, 1 / 100, 20⟩ = false ∧
      40 % SyncConfig.target_network_hard_steps ⟨false, 1 / 100, 20⟩ = 0) ∧
    update_targets ⟨false, 1 / 100, 20⟩ 40 [1, 2] [5, 6] = [1, 2] := by
  refine ⟨⟨by decide, by decide, by decide⟩, ?_⟩
  exact (C9_target_sync ⟨false, 1 / 100, 20⟩ 40 [1, 2] [5, 6] (by decide)).2.1
    (by decide) (by decide)

/-- Claim C10: the priorities handed to memory.update_priorities equal
abs(error) + 0.0001 row by row for the error returned by optimize_networks,
and every priority is strictly positive. -/
theorem C10_priorities_positive (error : List ℚ) :
    (optimize_priorities error).length = error.length ∧
    (∀ i, i < error.length →
      (optimize_priorities error).getD i 0 = |error.getD i 0| + 1 / 10000) ∧
    (∀ p ∈ optimize_priorities error, 0 < p) := by
  refine ⟨by simp [optimize_priorities], ?_, ?_⟩
  · intro i hi
    induction error generalizing i with
    | nil => simp at hi
    | cons a as ih =>
      cases i with
      | zero => simp [optimize_priorities]
      | succ j =>
        have hj : j < as.length := by simpa using hi
        simpa [optimize_priorities] using ih j hj
  · intro p hp
    simp only [optimize_priorities, List.mem_map] at hp
    obtain ⟨e, -, rfl⟩ := hp
    have h1 : (0 : ℚ) ≤ |e| := abs_nonneg e
    have h2 : (0 : ℚ) < 1 / 10000 := by norm_num
    linarith

/-- Closed witness for C10 at the error tensor [-3, 0, 2]: row 1 has priority
|0| + 0.0001 = 1/10000. -/
theorem C10_priorities_positive_witness :
    1 < ([-3, 0, 2] : List ℚ).length ∧
    (optimize_priorities [-3, 0, 2]).getD 1 0 = |([-3, 0, 2] : List ℚ).getD 1 0| + 1 / 10000 := by
  exact ⟨by decide, (C10_priorities_positive [-3, 0, 2]).2.1 1 (by decide)⟩

lemma boolMaskSelect_eq {α : Type} (dl : α) :
    ∀ (mask : List Bool) (l : List α), l.length = mask.length →
    boolMaskSelect l mask
      = ((List.range mask.length).filter (fun i => mask.getD i false)).map
          (fun i => l.getD i dl) := by
  intro mask
  induction mask with
  | nil =>
    intro l h
    have : l = [] := List.length_eq_zero.mp (by simpa using h)
    subst this
    rfl
  | cons b ms ih =>
    intro l h
    cases l with
    | nil => simp at h
    | cons a as =>
      have has : as.length = ms.length := by simpa using h
      have step := ih as has
      simp only [List.length_cons]
      rw [List.range_succ_eq_map]
      rw [List.filter_cons]
      have hcomm : ((List.range ms.length).map Nat.succ).filter
            (fun i => (b :: ms).getD i false)
          = ((List.range ms.length).filter (fun i => ms.getD i false)).map Nat.succ := by
        rw [List.filter_map]
        rfl
      have hgd0 : ((b :: ms).getD 0 false) = b := rfl
      cases b with
      | true =>
        simp only [boolMaskSelect, if_pos rfl, hgd0, hcomm, List.map_cons, List.map_map]
        rw [step]
        simp [Function.comp]
      | false =>
        simp only [boolMaskSelect, hgd0, Bool.false_eq_true, if_false, hcomm, List.map_map]
        rw [step]
        simp [Function.comp]

/-- Claim C7: under the CACLA-V rule the actor trains on exactly the rows
where V.TDE < 0, the regression target for each selected row is the action
actually taken there (argmax of the one-hot action row), and every selected
row gets the constant sample weight -1. -/
theorem C7_cacla_v_selection (V_TDE : List ℚ)
    (actions_current_state action_batch : List (List ℚ))
    (h1 : actions_current_state.length = V_TDE.length)
    (h2 : action_batch.length = V_TDE.length) :
    (actor_optimize_CACLA_V V_TDE actions_current_state action_batch).output
      = (negative_TDE_rows V_TDE).map (fun i => actions_current_state.getD i []) ∧
    (actor_optimize_CACLA_V V_TDE actions_current_state action_batch).target
      = (negative_TDE_rows V_TDE).map (fun i => rowArgmax (action_batch.getD i [])) ∧
    (actor_optimize_CACLA_V V_TDE actions_current_state action_batch).sample_weights
      = List.replicate (negative_TDE_rows V_TDE).length (-1 : ℚ) := by
  have hmask : (V_TDE.map (fun t => decide (t < 0))).length = V_TDE.length := by simp
  have hpred : (fun i => (V_TDE.map (fun t => decide (t < 0))).getD i false)
      = fun i => decide (V_TDE.getD i 0 < 0) := by
    funext i
    have : (false : Bool) = decide ((0 : ℚ) < 0) := by decide
    rw [this, List.getD_map]
  have hout : (actor_optimize_CACLA_V V_TDE actions_current_state action_batch).output
      = (negative_TDE_rows V_TDE).map (fun i => actions_current_state.getD i []) := by
    show boolMaskSelect actions_current_state (V_TDE.map (fun t => decide (t < 0)))
      = (negative_TDE_rows V_TDE).map (fun i => actions_current_state.getD i [])
    rw [boolMaskSelect_eq ([] : List ℚ) _ _ (by simpa using h1), hmask, hpred]
    rfl
  have htar : (actor_optimize_CACLA_V V_TDE actions_current_state action_batch).target
      = (negative_TDE_rows V_TDE).map (fun i => rowArgmax (action_batch.getD i [])) := by
    show boolMaskSelect (action_batch.map rowArgmax) (V_TDE.map (fun t => decide (t < 0)))
      = (negative_TDE_rows V_TDE).map (fun i => rowArgmax (action_batch.getD i []))
    rw [boolMaskSelect_eq (0 : ℕ) _ _ (by simpa using h2), hmask, hpred]
    have : (fun i => (action_batch.map rowArgmax).getD i 0)
        = fun i => rowArgmax (action_batch.getD i []) := by
      funext i
      have h0 : (0 : ℕ) = rowArgmax [] := rfl
      rw [h0, List.getD_map]
    rw [this]
    rfl
  refine ⟨hout, htar, ?_⟩
  show List.replicate (boolMaskSelect (action_batch.map rowArgmax)
      (V_TDE.map (fun t => decide (t < 0)))).length (-1 : ℚ) = _
  have := htar
  simp only [actor_optimize_CACLA_V] at this
  rw [this]
  simp

/-- Closed witness for C7, the spec's Scenario C: V.TDE = [-1, 2, -1/2, 3, -2]
on a 5-row batch selects exactly rows 0, 2 and 4 with weight -1 each. -/
theorem C7_cacla_v_selection_witness :
    (([[1], [2], [3], [4], [5]] : List (List ℚ)).length
        = ([-1, 2, -1/2, 3, -2] : List ℚ).length ∧
      ([[0, 1], [1, 0], [0, 1], [1, 0], [0, 1]] : List (List ℚ)).length
        = ([-1, 2, -1/2, 3, -2] : List ℚ).length ∧
      negative_TDE_rows [-1, 2, -1/2, 3, -2] = [0, 2, 4]) ∧
    ((actor_optimize_CACLA_V [-1, 2, -1/2, 3, -2] [[1], [2], [3], [4], [5]]
        [[0, 1], [1, 0], [0, 1], [1, 0], [0, 1]]).output
      = (negative_TDE_rows [-1, 2, -1/2, 3, -2]).map
          (fun i => ([[1], [2], [3], [4], [5]] : List (List ℚ)).getD i []) ∧
    (actor_optimize_CACLA_V [-1, 2, -1/2, 3, -2] [[1], [2], [3], [4], [5]]
        [[0, 1], [1, 0], [0, 1], [1, 0], [0, 1]]).target
      = (negative_TDE_rows [-1, 2, -1/2, 3, -2]).map
          (fun i => rowArgmax (([[0, 1], [1, 0], [0, 1], [1, 0], [0, 1]] : List (List ℚ)).getD i [])) ∧
    (actor_optimize_CACLA_V [-1, 2, -1/2, 3, -2] [[1], [2], [3], [4], [5]]
        [[0, 1], [1, 0], [0, 1], [1, 0], [0, 1]]).sample_weights
      = List.replicate (negative_TDE_rows [-1, 2, -1/2, 3, -2]).length (-1 : ℚ)) := by
  refine ⟨⟨by decide, by decide,
    by norm_num [negative_TDE_rows, List.range_succ, List.filter_append, List.filter_cons]⟩, ?_⟩
  exact C7_cacla_v_selection [-1, 2, -1/2, 3, -2] [[1], [2], [3], [4], [5]]
    [[0, 1], [1, 0], [0, 1], [1, 0], [0, 1]] (by decide) (by decide)

/-- Claim C8 is false on the code (code bug): for every batch sampled with
prioritized replay, the weights stored by get_transitions under the
"importance_weights" key are never read back — train_critic passes
transitions["PER_importance_weights"] (always None after extract_batch) to V
and the never-assigned self.importance_weights (None) to Q — so the smoothed
L1 TD loss is computed unweighted, which differs from the weighted loss the
claim requires (concrete discrepancy shown at output [0,0], target [1,3],
weights [2,3]). -/
theorem C8_importance_weights_dropped :
    (∀ (w : List ℚ) (idxs : List ℕ),
      train_critic_V_sample_weights (get_transitions_weight_keys w idxs) = none ∧
      train_critic_Q_sample_weights (get_transitions_weight_keys w idxs) = none) ∧
    compute_loss [0, 0] [1, 3] none ≠ compute_loss [0, 0] [1, 3] (some [2, 3]) := by
  refine ⟨fun w idxs => ⟨rfl, rfl⟩, ?_⟩
  norm_num [compute_loss, mean, smooth_l1]

lemma getD_replicate (n m : ℕ) (a d : ℕ) (h : m < n) :
    (List.replicate n a).getD m d = a := by
  rw [List.getD_eq_getElem _ _ (by simpa using h)]
  simp

lemma take_succ_sum (l : List ℕ) (j : ℕ) (h : j < l.length) :
    (l.take (j + 1)).sum = (l.take j).sum + l.getD j 0 := by
  rw [List.take_succ, List.sum_append]
  rw [List.getD_eq_getElem l 0 h]
  simp [List.getElem?_eq_getElem h]

lemma take_sum_le (l : List ℕ) (k : ℕ) : (l.take k).sum ≤ l.sum := by
  conv_rhs => rw [← List.take_append_drop k l]
  rw [List.sum_append]
  exact Nat.le_add_right _ _

lemma action_mapping_length (ns : List ℕ) (c : ℕ) :
    (action_mapping ns c).length = ns.sum := by
  induction ns generalizing c with
  | nil => rfl
  | cons n ns ih => simp [action_mapping, ih]

lemma action_mapping_getD_decode (ns : List ℕ) :
    ∀ (c a : ℕ), a < ns.sum → ∃ j,
      (action_mapping ns c).getD a 0 = c + j ∧ j < ns.length ∧
      (ns.take j).sum ≤ a ∧ a < (ns.take j).sum + ns.getD j 0 := by
  induction ns with
  | nil => intro c a ha; simp at ha
  | cons n ns ih =>
    intro c a ha
    rcases Nat.lt_or_ge a n with h | h
    · refine ⟨0, ?_, by simp, by simp, by simpa using h⟩
      simp only [action_mapping]
      rw [List.getD_append _ _ _ _ (by simpa using h)]
      simpa using getD_replicate n a c 0 h
    · have ha2 : a - n < ns.sum := by
        simp only [List.sum_cons] at ha
        omega
      obtain ⟨j2, hmap, hlen, hlow, hhigh⟩ := ih (c + 1) (a - n) ha2
      refine ⟨j2 + 1, ?_, by simpa using hlen, ?_, ?_⟩
      · simp only [action_mapping]
        rw [List.getD_append_right _ _ _ _ (by simpa using h)]
        simp only [List.length_replicate]
        rw [hmap]
        omega
      · simp only [List.take_succ_cons, List.sum_cons]
        omega
      · simp only [List.take_succ_cons, List.sum_cons, List.getD_cons_succ]
        omega

lemma action_mapping_getD_encode (ns : List ℕ) :
    ∀ (c j l : ℕ), j < ns.length → l < ns.getD j 0 →
      (action_mapping ns c).getD ((ns.take j).sum + l) 0 = c + j := by
  induction ns with
  | nil => intro c j l hj; simp at hj
  | cons n ns ih =>
    intro c j l hj hl
    cases j with
    | zero =>
      simp only [List.take_zero, List.sum_nil, Nat.zero_add, action_mapping]
      have hln : l < n := by simpa using hl
      rw [List.getD_append _ _ _ _ (by simpa using hln)]
      simpa using getD_replicate n l c 0 hln
    | succ j2 =>
      have hj2 : j2 < ns.length := by simpa using hj
      have hl2 : l < ns.getD j2 0 := by simpa using hl
      simp only [List.take_succ_cons, List.sum_cons, action_mapping]
      rw [List.getD_append_right _ _ _ _ (by simp; omega)]
      simp only [List.length_replicate]
      have harg : n + (ns.take j2).sum + l - n = (ns.take j2).sum + l := by omega
      rw [harg, ih (c + 1) j2 l hj2 hl2]
      omega

lemma encode_lt_sum (ns : List ℕ) (j l : ℕ) (hj : j < ns.length)
    (hl : l < ns.getD j 0) : (ns.take j).sum + l < ns.sum := by
  have h1 : (ns.take j).sum + l < (ns.take (j + 1)).sum := by
    rw [take_succ_sum ns j hj]
    omega
  exact Nat.lt_of_lt_of_le h1 (take_sum_le ns (j + 1))

/-- Claim C2: for the hierarchical policy built from branch sizes ns (children
assigned contiguous shifts, sizes summing to the flat size N = ns.sum), every
flat action a < N decodes to high = action_mapping[a] and
low = a - shift[high] with shift[high] ≤ a and low < n_high, re-encoding
low + shift[high] reproduces a, and the decode map is a bijection from
[0, N) onto the pairs (branch k, local index < n_k). -/
theorem C2_index_bijection (ns : List ℕ) :
    (∀ a, a < ns.sum →
      (action2high_low_level ns a).1 = (action_mapping ns 0).getD a 0 ∧
      (action2high_low_level ns a).2
        = a - branch_shift ns (action2high_low_level ns a).1 ∧
      (action2high_low_level ns a).1 < ns.length ∧
      branch_shift ns (action2high_low_level ns a).1 ≤ a ∧
      (action2high_low_level ns a).2 < ns.getD (action2high_low_level ns a).1 0 ∧
      branch_shift ns (action2high_low_level ns a).1
          + (action2high_low_level ns a).2 = a) ∧
    Set.BijOn (action2high_low_level ns) (Set.Iio ns.sum)
      {p : ℕ × ℕ | p.1 < ns.length ∧ p.2 < ns.getD p.1 0} := by
  have hdec : ∀ a, a < ns.sum →
      (action2high_low_level ns a).1 < ns.length ∧
      branch_shift ns (action2high_low_level ns a).1 ≤ a ∧
      (action2high_low_level ns a).2 < ns.getD (action2high_low_level ns a).1 0 ∧
      branch_shift ns (action2high_low_level ns a).1
          + (action2high_low_level ns a).2 = a := by
    intro a ha
    obtain ⟨j, hmap, hlen, hlow, hhigh⟩ := action_mapping_getD_decode ns 0 a ha
    have hfst : (action2high_low_level ns a).1 = j := by
      simp only [action2high_low_level]
      omega
    have hsnd : (action2high_low_level ns a).2 = a - (ns.take j).sum := by
      simp only [action2high_low_level, branch_shift]
      rw [show (action_mapping ns 0).getD a 0 = j by omega]
    rw [hfst, hsnd]
    refine ⟨hlen, ?_, ?_, ?_⟩
    · show (ns.take j).sum ≤ a
      omega
    · omega
    · show (ns.take j).sum + (a - (ns.take j).sum) = a
      omega
  constructor
  · intro a ha
    obtain ⟨h1, h2, h3, h4⟩ := hdec a ha
    exact ⟨rfl, rfl, h1, h2, h3, h4⟩
  · refine ⟨?_, ?_, ?_⟩
    · intro a ha
      obtain ⟨h1, -, h3, -⟩ := hdec a (by simpa using ha)
      exact ⟨h1, h3⟩
    · intro a ha b hb heq
      obtain ⟨-, -, -, h4a⟩ := hdec a (by simpa using ha)
      obtain ⟨-, -, -, h4b⟩ := hdec b (by simpa using hb)
      have e1 : (action2high_low_level ns a).1 = (action2high_low_level ns b).1 :=
        congrArg Prod.fst heq
      have e2 : (action2high_low_level ns a).2 = (action2high_low_level ns b).2 :=
        congrArg Prod.snd heq
      have e3 : branch_shift ns (action2high_low_level ns a).1
          = branch_shift ns (action2high_low_level ns b).1 := by rw [e1]
      omega
    · intro p hp
      obtain ⟨hp1, hp2⟩ := hp
      refine ⟨branch_shift ns p.1 + p.2, ?_, ?_⟩
      · simpa using encode_lt_sum ns p.1 p.2 hp1 hp2
      · have hmap : (action_mapping ns 0).getD ((ns.take p.1).sum + p.2) 0 = p.1 := by
          simpa using action_mapping_getD_encode ns 0 p.1 p.2 hp1 hp2
        have : action2high_low_level ns (branch_shift ns p.1 + p.2) = (p.1, p.2) := by
          simp only [action2high_low_level, branch_shift]
          rw [hmap]
          simp
        simpa using this

/-- Closed witness for C2 at the MineRLObtainPolicy sizes [9, 6, 7, 4, 7, 2]
and flat action 20, which lies in the equipper range [15, 22). -/
theorem C2_index_bijection_witness :
    20 < obtainSizes.sum ∧
    ((action2high_low_level obtainSizes 20).1
        = (action_mapping obtainSizes 0).getD 20 0 ∧
      (action2high_low_level obtainSizes 20).2
        = 20 - branch_shift obtainSizes (action2high_low_level obtainSizes 20).1 ∧
      (action2high_low_level obtainSizes 20).1 < obtainSizes.length ∧
      branch_shift obtainSizes (action2high_low_level obtainSizes 20).1 ≤ 20 ∧
      (action2high_low_level obtainSizes 20).2
        < obtainSizes.getD (action2high_low_level obtainSizes 20).1 0 ∧
      branch_shift obtainSizes (action2high_low_level obtainSizes 20).1
          + (action2high_low_level obtainSizes 20).2 = 20) :=
  ⟨by decide, (C2_index_bijection obtainSizes).1 20 (by decide)⟩

/-- Claim C6: when hierarchical optimize_networks returns, the transitions
dict holds the original flat action_argmax again — the high-level and
low-level overwrites performed during the call do not leak to the caller. -/
theorem C6_action_argmax_restored (ns : List ℕ) (deciderOpt : TransitionBatch → List ℚ)
    (branchOpt : ℕ → TransitionBatch → List ℚ) (t : TransitionBatch) :
    (hier_optimize_networks ns deciderOpt branchOpt t).1.action_argmax
      = t.action_argmax := rfl

lemma filter_map_congr {α β : Type} (l : List α) (p q : α → Bool) (f g : α → β)
    (hp : ∀ a ∈ l, p a = q a) (hf : ∀ a ∈ l, f a = g a) :
    (l.filter p).map f = (l.filter q).map g := by
  induction l with
  | nil => rfl
  | cons a as ih =>
    have hpa : p a = q a := hp a (by simp)
    have hfa : f a = g a := hf a (by simp)
    have tail := ih (fun x hx => hp x (by simp [hx])) (fun x hx => hf x (by simp [hx]))
    rcases hq : q a with _ | _
    · simp [List.filter_cons, hpa, hq, tail]
    · simp [List.filter_cons, hpa, hq, hfa, tail]

lemma apply_idx_mask_loop_eq :
    ∀ (ms : List Bool) (k : ℕ) (cpy : List ℕ) (nfi : ℕ),
      cpy ≠ [] → List.Sorted (· < ·) cpy → (∀ i ∈ cpy, k ≤ i) →
      apply_idx_mask_loop ms k cpy nfi =
        some ((cpy.filter (fun i => ms.getD (i - k) false)).map
          (fun i => nfi + ((ms.take (i - k)).count true))) := by
  intro ms
  induction ms with
  | nil =>
    intro k cpy nfi _ _ _
    simp [apply_idx_mask_loop]
  | cons b ms2 ih =>
    intro k cpy nfi hne hsort hge
    cases cpy with
    | nil => exact absurd rfl hne
    | cons c cs =>
      have hkc : k ≤ c := hge c (by simp)
      have hcs_sorted : List.Sorted (· < ·) cs := (List.sorted_cons.mp hsort).2
      have hcs_gt : ∀ i ∈ cs, c < i := (List.sorted_cons.mp hsort).1
      rcases Nat.eq_or_lt_of_le hkc with heq | hlt
      · -- k = c: the head index is consumed at this mask position
        subst heq
        cases hcs : cs with
        | nil =>
          -- break: only the head remains
          simp only [apply_idx_mask_loop, if_pos rfl, if_pos rfl]
          rcases b with _ | _ <;> simp [List.filter_cons]
        | cons c2 cs2 =>
          have hcs_ne : cs ≠ [] := by simp [hcs]
          rw [← hcs]
          simp only [apply_idx_mask_loop, if_pos rfl, if_neg hcs_ne]
          rw [ih (k + 1) cs (if b then nfi + 1 else nfi) hcs_ne hcs_sorted
            (fun i hi => by have := hcs_gt i hi; omega)]
          rw [Option.map_some']
          have htail : (cs.filter (fun i => ms2.getD (i - (k + 1)) false)).map
                (fun i => (if b then nfi + 1 else nfi) + ((ms2.take (i - (k + 1))).count true))
              = (cs.filter (fun i => (b :: ms2).getD (i - k) false)).map
                (fun i => nfi + (((b :: ms2).take (i - k)).count true)) := by
            apply filter_map_congr
            · intro i hi
              have hik : k + 1 ≤ i := by have := hcs_gt i hi; omega
              have harith : i - k = (i - (k + 1)) + 1 := by omega
              rw [harith, List.getD_cons_succ]
            · intro i hi
              have hik : k + 1 ≤ i := by have := hcs_gt i hi; omega
              have harith : i - k = (i - (k + 1)) + 1 := by omega
              rw [harith, List.take_succ_cons, List.count_cons]
              rcases b with _ | _
              all_goals simp
              all_goals omega
          rw [htail]
          have hhead : (b :: ms2).getD (k - k) false = b := by
            simp [Nat.sub_self]
          rcases hb : b with _ | _
          · simp only [List.filter_cons, hhead, hb, Bool.false_eq_true, if_false]
            simp [hb]
          · simp only [List.filter_cons, hhead, hb, if_pos rfl]
            simp [hb, Nat.sub_self]
      · -- k < c: this mask position matches no selected row
        have hne2 : ¬ (k = c) := by omega
        simp only [apply_idx_mask_loop, if_neg hne2]
        rw [ih (k + 1) (c :: cs) (if b then nfi + 1 else nfi) (by simp) hsort
          (by intro i hi; rcases List.mem_cons.mp hi with rfl | hi2
              · omega
              · have := hcs_gt i hi2; omega)]
        rw [Option.map_some']
        have hfalse : (b = true ∧ k = c) = False := by
          simp [hne2]
        congr 1
        have hall : ((c :: cs).filter (fun i => ms2.getD (i - (k + 1)) false)).map
              (fun i => (if b then nfi + 1 else nfi) + ((ms2.take (i - (k + 1))).count true))
            = ((c :: cs).filter (fun i => (b :: ms2).getD (i - k) false)).map
              (fun i => nfi + (((b :: ms2).take (i - k)).count true)) := by
          apply filter_map_congr
          · intro i hi
            have hik : k + 1 ≤ i := by
              rcases List.mem_cons.mp hi with rfl | hi2
              · omega
              · have := hcs_gt i hi2; omega
            have harith : i - k = (i - (k + 1)) + 1 := by omega
            rw [harith, List.getD_cons_succ]
          · intro i hi
            have hik : k + 1 ≤ i := by
              rcases List.mem_cons.mp hi with rfl | hi2
              · omega
              · have := hcs_gt i hi2; omega
            have harith : i - k = (i - (k + 1)) + 1 := by omega
            rw [harith, List.take_succ_cons, List.count_cons]
            rcases b with _ | _
            all_goals simp
            all_goals omega
        rw [hall]
        simp [hfalse]

lemma apply_idx_mask_to_mask_eq (idx_mask : List ℕ) (mask : List Bool)
    (hne : idx_mask ≠ []) (hsorted : List.Sorted (· < ·) idx_mask) :
    apply_idx_mask_to_mask idx_mask mask =
      some ((idx_mask.filter (fun i => mask.getD i false)).map
        (fun i => (mask.take i).count true)) := by
  have h := apply_idx_mask_loop_eq mask 0 idx_mask 0 hne hsorted
    (fun i _ => Nat.zero_le i)
  simpa using h

/-- Claim C4: for a transitions dict satisfying the batch invariant and a
non-empty strictly increasing row-index mask, apply_mask_to_transitions
returns a partial batch whose non_final_mask is the parent non_final_mask
restricted to the selected rows, and whose non_final_next_states /
non_final_next_state_features hold, for each selected row with a non-final
next state and in the same relative order, exactly the parent compacted
next-state row at the position given by the number of true parent-mask
entries strictly before that row. -/
theorem C4_partial_batch_non_final (t : TransitionBatch) (idx_mask : List ℕ)
    (hne : idx_mask ≠ [])
    (hsorted : List.Sorted (· < ·) idx_mask)
    (hbound : ∀ i ∈ idx_mask, i < t.non_final_mask.length)
    (hinv1 : t.non_final_next_state_features.length = t.non_final_mask.count true)
    (hinv2 : t.non_final_next_states.length = t.non_final_mask.count true) :
    ∃ masked, apply_mask_to_transitions t idx_mask = some masked ∧
      masked.non_final_mask
        = idx_mask.map (fun i => t.non_final_mask.getD i false) ∧
      masked.non_final_next_state_features
        = (idx_mask.filter (fun i => t.non_final_mask.getD i false)).map
            (fun i => t.non_final_next_state_features.getD
              ((t.non_final_mask.take i).count true) 0) ∧
      masked.non_final_next_states
        = (idx_mask.filter (fun i => t.non_final_mask.getD i false)).map
            (fun i => t.non_final_next_states.getD
              ((t.non_final_mask.take i).count true) 0) := by
  unfold apply_mask_to_transitions
  rw [apply_idx_mask_to_mask_eq idx_mask t.non_final_mask hne hsorted,
    Option.map_some']
  refine ⟨_, rfl, ?_, ?_, ?_⟩
  · simp [select]
  · simp only [select, List.map_map, Function.comp]
    exact List.map_congr_left (fun i _ => rfl)
  · simp only [select, List.map_map, Function.comp]
    exact List.map_congr_left (fun i _ => rfl)

/-- Closed witness for C4 at a concrete 4-row batch with parent mask
[true, false, true, true] and selected rows [1, 2]: the partial mask is
[false, true] and row 2 picks compacted next-state position 1. -/
theorem C4_partial_batch_non_final_witness :
    (([1, 2] : List ℕ) ≠ [] ∧
      List.Sorted (· < ·) ([1, 2] : List ℕ) ∧
      (∀ i ∈ ([1, 2] : List ℕ),
        i < (TransitionBatch.mk [1, 2, 3, 4] [[1], [2], [3], [4]] [10, 20, 30, 40]
          [100, 200, 300] [true, false, true, true] [7, 8, 9] [5, 6, 7, 8]
          [0, 1, 2, 3]).non_final_mask.length) ∧
      (TransitionBatch.mk [1, 2, 3, 4] [[1], [2], [3], [4]] [10, 20, 30, 40]
          [100, 200, 300] [true, false, true, true] [7, 8, 9] [5, 6, 7, 8]
          [0, 1, 2, 3]).non_final_next_state_features.length
        = (TransitionBatch.mk [1, 2, 3, 4] [[1], [2], [3], [4]] [10, 20, 30, 40]
          [100, 200, 300] [true, false, true, true] [7, 8, 9] [5, 6, 7, 8]
          [0, 1, 2, 3]).non_final_mask.count true ∧
      (TransitionBatch.mk [1, 2, 3, 4] [[1], [2], [3], [4]] [10, 20, 30, 40]
          [100, 200, 300] [true, false, true, true] [7, 8, 9] [5, 6, 7, 8]
          [0, 1, 2, 3]).non_final_next_states.length
        = (TransitionBatch.mk [1, 2, 3, 4] [[1], [2], [3], [4]] [10, 20, 30, 40]
          [100, 200, 300] [true, false, true, true] [7, 8, 9] [5, 6, 7, 8]
          [0, 1, 2, 3]).non_final_mask.count true) ∧
    (∃ masked, apply_mask_to_transitions
        (TransitionBatch.mk [1, 2, 3, 4] [[1], [2], [3], [4]] [10, 20, 30, 40]
          [100, 200, 300] [true, false, true, true] [7, 8, 9] [5, 6, 7, 8]
          [0, 1, 2, 3]) [1, 2] = some masked ∧
      masked.non_final_mask
        = ([1, 2] : List ℕ).map
            (fun i => ([true, false, true, true] : List Bool).getD i false) ∧
      masked.non_final_next_state_features
        = (([1, 2] : List ℕ).filter
            (fun i => ([true, false, true, true] : List Bool).getD i false)).map
            (fun i => ([7, 8, 9] : List ℚ).getD
              ((([true, false, true, true] : List Bool).take i).count true) 0) ∧
      masked.non_final_next_states
        = (([1, 2] : List ℕ).filter
            (fun i => ([true, false, true, true] : List Bool).getD i false)).map
            (fun i => ([100, 200, 300] : List ℚ).getD
              ((([true, false, true, true] : List Bool).take i).count true) 0)) := by
  refine ⟨⟨by decide, by decide, by decide, by decide, by decide⟩, ?_⟩
  exact C4_partial_batch_non_final
    (TransitionBatch.mk [1, 2, 3, 4] [[1], [2], [3], [4]] [10, 20, 30, 40]
      [100, 200, 300] [true, false, true, true] [7, 8, 9] [5, 6, 7, 8]
      [0, 1, 2, 3]) [1, 2] (by decide) (by decide) (by decide) (by decide) (by decide)

lemma get_masks_loop_length (actions : List ℕ) :
    ∀ (init : List (List ℕ)) (k : ℕ),
      (get_masks_loop init k actions).length = init.length := by
  induction actions with
  | nil => intro init k; rfl
  | cons a rest ih =>
    intro init k
    simp only [get_masks_loop]
    rw [ih, List.length_set]

lemma get_masks_loop_getD (actions : List ℕ) :
    ∀ (init : List (List ℕ)) (k j : ℕ), (∀ a ∈ actions, a < init.length) →
      (get_masks_loop init k actions).getD j []
        = init.getD j [] ++ ((List.range actions.length).filter
            (fun i => decide (actions.getD i 0 = j))).map (fun i => k + i) := by
  induction actions with
  | nil => intro init k j _; simp [get_masks_loop]
  | cons a rest ih =>
    intro init k j h
    have ha : a < init.length := h a (by simp)
    have hrest : ∀ x ∈ rest, x < (init.set a (init.getD a [] ++ [k])).length := by
      intro x hx
      rw [List.length_set]
      exact h x (by simp [hx])
    simp only [get_masks_loop]
    rw [ih (init.set a (init.getD a [] ++ [k])) (k + 1) j hrest]
    have hrange : ((List.range (a :: rest).length).filter
          (fun i => decide ((a :: rest).getD i 0 = j))).map (fun i => k + i)
        = (if a = j then [k] else [])
          ++ ((List.range rest.length).filter
            (fun i => decide (rest.getD i 0 = j))).map (fun i => (k + 1) + i) := by
      rw [List.length_cons, List.range_succ_eq_map, List.filter_cons]
      have hps : ((fun i => decide ((a :: rest).getD i 0 = j)) ∘ Nat.succ)
          = fun i => decide (rest.getD i 0 = j) := by
        funext i
        simp [List.getD_cons_succ]
      rw [List.filter_map, hps]
      have hfs : ((fun i => k + i) ∘ Nat.succ) = fun i => (k + 1) + i := by
        funext i
        simp only [Function.comp]
        omega
      by_cases haj : a = j
      · have hd : decide ((a :: rest).getD 0 0 = j) = true := by simp [haj]
        rw [hd, if_pos haj, if_pos rfl, List.map_cons, List.map_map, hfs]
        rfl
      · have hd : decide ((a :: rest).getD 0 0 = j) = false := by simp [haj]
        rw [hd, if_neg haj]
        simp only [Bool.false_eq_true, if_false, List.map_map, hfs, List.nil_append]
    rw [hrange]
    by_cases haj : a = j
    · subst haj
      have hset : (init.set a (init.getD a [] ++ [k])).getD a []
          = init.getD a [] ++ [k] := by
        rw [List.getD_eq_getElem?_getD, List.getElem?_set_self ha]
        rfl
      rw [hset, List.append_assoc, if_pos rfl]
    · have hset : (init.set a (init.getD a [] ++ [k])).getD j [] = init.getD j [] := by
        rw [List.getD_eq_getElem?_getD, List.getElem?_set_ne haj,
          ← List.getD_eq_getElem?_getD]
      rw [hset, if_neg haj, List.nil_append]

lemma get_masks_length (actions : List ℕ) (num : ℕ) :
    (get_masks actions num).length = num := by
  simp [get_masks, get_masks_loop_length]

lemma get_masks_getD (actions : List ℕ) (num j : ℕ) (h : ∀ a ∈ actions, a < num) :
    (get_masks actions num).getD j [] = routed_rows actions j := by
  unfold get_masks
  rw [get_masks_loop_getD actions (List.replicate num []) 0 j (by simpa using h)]
  have hrep : (List.replicate num ([] : List ℕ)).getD j [] = [] := by
    rcases Nat.lt_or_ge j num with hj | hj
    · rw [List.getD_eq_getElem?_getD]
      simp [List.getElem?_replicate, hj]
    · rw [List.getD_eq_getElem?_getD, List.getElem?_eq_none (by simpa using hj)]
      rfl
  have hzero : (fun i => 0 + i) = fun i : ℕ => i := by
    funext i
    omega
  rw [hrep, hzero]
  simp only [List.nil_append]
  rw [show (fun i : ℕ => i) = id from rfl, List.map_id]
  rfl

/-- Claim C5: in the hierarchical optimize_networks loop each branch k is
invoked at most once, an invocation (k, idx_mask) happens exactly when the
set of rows whose decoded high-level action equals k is non-empty and its
idx_mask is precisely that row set (so slicing any batch tensor for the call
picks exactly those rows), and a branch with no routed rows is skipped. -/
theorem C5_branch_routing (ns : List ℕ) (actions : List ℕ)
    (hns : ns.length ≤ 6) (ha : ∀ a ∈ actions, a < ns.sum) :
    ((obtain_invoked_branches (high_of ns actions)).map Prod.fst).Nodup ∧
    (∀ k m, (k, m) ∈ obtain_invoked_branches (high_of ns actions) ↔
      (k < 6 ∧ m = routed_rows (high_of ns actions) k ∧ m ≠ [])) ∧
    (∀ k m, (k, m) ∈ obtain_invoked_branches (high_of ns actions) →
      ∀ (l : List ℚ), select l m
        = (routed_rows (high_of ns actions) k).map (fun i => l.getD i 0)) := by
  have hhigh : ∀ x ∈ high_of ns actions, x < 6 := by
    intro x hx
    obtain ⟨a, haa, rfl⟩ := List.mem_map.mp hx
    obtain ⟨j, hmap, hjlen, -, -⟩ := action_mapping_getD_decode ns 0 a (ha a haa)
    have hfst : (action2high_low_level ns a).1 = j := by
      simp only [action2high_low_level]
      omega
    omega
  have hlen6 : (get_masks (high_of ns actions) 6).length = 6 :=
    get_masks_length _ 6
  have hbucket : ∀ k, k < 6 →
      (get_masks (high_of ns actions) 6).getD k []
        = routed_rows (high_of ns actions) k := by
    intro k _
    exact get_masks_getD _ 6 k hhigh
  have hmem : ∀ k m, (k, m) ∈ obtain_invoked_branches (high_of ns actions) ↔
      (k < 6 ∧ m = routed_rows (high_of ns actions) k ∧ m ≠ []) := by
    intro k m
    unfold obtain_invoked_branches
    rw [List.mem_filter]
    constructor
    · rintro ⟨hm, hq⟩
      have hget := List.mk_mem_enum_iff_getElem?.mp hm
      obtain ⟨hk, hval⟩ := List.getElem?_eq_some.mp hget
      rw [hlen6] at hk
      have hmm : m = routed_rows (high_of ns actions) k := by
        rw [← hbucket k hk, List.getD_eq_getElem _ _ (by omega), hval]
      refine ⟨hk, hmm, ?_⟩
      intro hnil
      rw [hnil] at hq
      simp at hq
    · rintro ⟨hk, hmval, hne⟩
      refine ⟨?_, ?_⟩
      · apply List.mk_mem_enum_iff_getElem?.mpr
        have hklt : k < (get_masks (high_of ns actions) 6).length := by omega
        rw [List.getElem?_eq_getElem hklt]
        rw [← List.getD_eq_getElem _ ([] : List ℕ) hklt, hbucket k hk, ← hmval]
      · cases m with
        | nil => exact absurd rfl hne
        | cons x xs => simp
  refine ⟨?_, hmem, ?_⟩
  · have hsub : ((obtain_invoked_branches (high_of ns actions)).map Prod.fst).Sublist
        ((get_masks (high_of ns actions) 6).enum.map Prod.fst) :=
      (List.filter_sublist _).map Prod.fst
    rw [List.enum_map_fst] at hsub
    exact (List.nodup_range _).sublist hsub
  · intro k m hm l
    obtain ⟨-, hmval, -⟩ := (hmem k m).mp hm
    rw [hmval]
    rfl

/-- Closed witness for C5, the spec Scenario B shape: branch sizes [2, 3]
(N = 5) and a 10-row batch in which 4 rows decode to branch 0 and 6 rows to
branch 1. -/
theorem C5_branch_routing_witness :
    (([2, 3] : List ℕ).length ≤ 6 ∧
      (∀ a ∈ ([0, 2, 1, 3, 4, 0, 2, 1, 4, 3] : List ℕ), a < ([2, 3] : List ℕ).sum) ∧
      (routed_rows (high_of [2, 3] [0, 2, 1, 3, 4, 0, 2, 1, 4, 3]) 0).length = 4 ∧
      (routed_rows (high_of [2, 3] [0, 2, 1, 3, 4, 0, 2, 1, 4, 3]) 1).length = 6) ∧
    (((obtain_invoked_branches
        (high_of [2, 3] [0, 2, 1, 3, 4, 0, 2, 1, 4, 3])).map Prod.fst).Nodup ∧
      (∀ k m, (k, m) ∈ obtain_invoked_branches
          (high_of [2, 3] [0, 2, 1, 3, 4, 0, 2, 1, 4, 3]) ↔
        (k < 6 ∧ m = routed_rows (high_of [2, 3] [0, 2, 1, 3, 4, 0, 2, 1, 4, 3]) k ∧
          m ≠ [])) ∧
      (∀ k m, (k, m) ∈ obtain_invoked_branches
          (high_of [2, 3] [0, 2, 1, 3, 4, 0, 2, 1, 4, 3]) →
        ∀ (l : List ℚ), select l m
          = (routed_rows (high_of [2, 3] [0, 2, 1, 3, 4, 0, 2, 1, 4, 3]) k).map
              (fun i => l.getD i 0))) :=
  ⟨⟨by decide, by decide, by decide, by decide⟩,
    C5_branch_routing [2, 3] [0, 2, 1, 3, 4, 0, 2, 1, 4, 3] (by decide) (by decide)⟩

end DeepRLTorch
